import Mathlib

/-!
Shallow embedding of the sequelize-graphql compiler (src/index.ts).

The source translates a GraphQL selection (with per-field filter, order and
limit arguments) into a Sequelize FindOptions tree.  Model classes are
represented by their names, resolved against an explicit schema, so that
cyclic association graphs (such as a self association) are expressible.
JavaScript runtime values are modelled by the inductive type JSVal; a thrown
exception is modelled by an Option returning none.  List indexing with
mutation (Array.prototype.splice and forEach in resolveFragments) is modelled
by explicit index-passing loops.
-/

/-- JavaScript runtime values as produced by valueFromASTUntyped and by
variable lookup.  undefined models the JavaScript value undefined. -/
inductive JSVal : Type where
  | undefined : JSVal
  | null : JSVal
  | bool : Bool → JSVal
  | num : Int → JSVal
  | str : String → JSVal
  | arr : List JSVal → JSVal
  | obj : List (String × JSVal) → JSVal

/-- JavaScript truthiness of a value. -/
def truthy : JSVal → Bool
  | .undefined => false
  | .null => false
  | .bool b => b
  | .num n => !(n == 0)
  | .str s => !(s == "")
  | .arr _ => true
  | .obj _ => true

/-- First-match lookup in an association list, modelling JavaScript object
property access. -/
def lookupKey {α : Type} : List (String × α) → String → Option α
  | [], _ => none
  | (k, v) :: rest, key => if k == key then some v else lookupKey rest key

/-- The JavaScript `in` operator on an object modelled as an association
list. -/
def hasKey {α : Type} (l : List (String × α)) (k : String) : Bool :=
  (lookupKey l k).isSome

/-- Property read returning undefined when the key is absent. -/
def getKeyD (l : List (String × JSVal)) (k : String) : JSVal :=
  (lookupKey l k).getD .undefined

/-- JavaScript property assignment obj[k] = v on an association list:
overwrite in place when present, append otherwise. -/
def setKey : List (String × JSVal) → String → JSVal → List (String × JSVal)
  | [], k, v => [(k, v)]
  | (k0, v0) :: rest, k, v =>
      if k0 == k then (k0, v) :: rest else (k0, v0) :: setKey rest k v

/-- Property read v[k] in JavaScript: throws (none) on null or undefined,
yields undefined (as a value) on primitives, looks the key up on objects. -/
def jsProp : JSVal → String → Option JSVal
  | .undefined, _ => none
  | .null, _ => none
  | .obj fs, k => some (getKeyD fs k)
  | _, _ => some .undefined

/-- An argument value in the selection AST: either a variable reference,
resolved through info.variableValues, or a literal already collapsed through
valueFromASTUntyped. -/
inductive ArgValueNode : Type where
  | varRef : String → ArgValueNode
  | lit : JSVal → ArgValueNode

/-- A GraphQL selection node: a concrete field (name, optional argument
list, optional nested selection set) or a fragment spread. -/
inductive SelectionNode : Type where
  | field : String → Option (List (String × ArgValueNode)) →
      Option (List SelectionNode) → SelectionNode
  | spread : String → SelectionNode

/-- field.name.value; for a fragment spread this is the fragment's name. -/
def selName : SelectionNode → String
  | .field n _ _ => n
  | .spread n => n

/-- field.selectionSet (a fragment spread has none). -/
def selSelectionSet : SelectionNode → Option (List SelectionNode)
  | .field _ _ s => s
  | .spread _ => none

/-- field.arguments (a fragment spread has none). -/
def selArguments : SelectionNode → Option (List (String × ArgValueNode))
  | .field _ a _ => a
  | .spread _ => none

/-- Is the node a concrete field (kind different from FragmentSpread)? -/
def isField : SelectionNode → Bool
  | .field _ _ _ => true
  | .spread _ => false

/-- Does the node match a fragment spread with the given name? -/
def isSpreadNamed (nm : String) : SelectionNode → Bool
  | .spread n => n == nm
  | .field _ _ _ => false

/-- Truthiness of field.selectionSet. -/
def hasSelSet (s : SelectionNode) : Bool := (selSelectionSet s).isSome

/-- Static data of one Sequelize model class: its name, rawAttributes (key
set), primaryKeyAttribute, primaryKeyAttributes and associations (name to
target model name). -/
structure EntityData : Type where
  name : String
  rawAttributes : List String
  primaryKeyAttribute : Option String
  primaryKeyAttributes : List String
  associations : List (String × String)

/-- A schema maps model names to their data; it stands for the set of model
classes in scope, so cyclic association graphs are representable. -/
abbrev Schema := List (String × EntityData)

/-- Resolve a model name; the default is only reached for a name that has no
class at all (impossible in the JavaScript source, where the class object is
held directly). -/
def getEntity (S : Schema) (m : String) : EntityData :=
  (lookupKey S m).getD ⟨m, [], none, [], []⟩

/-- parentModel.associations[leg] followed by .target, as a model name. -/
def lookupAssocTarget (S : Schema) (m leg : String) : Option String :=
  lookupKey (getEntity S m).associations leg

/-- The parts of GraphQLResolveInfo that getIncludes and its helpers read:
the fragment table and the variable values. -/
structure QueryCtx : Type where
  fragments : List (String × List SelectionNode)
  variableValues : List (String × JSVal)

/-- The parts of GraphQLResolveInfo the compiler reads: the root field's
selection set (none when fieldNodes is empty or has no selectionSet) and
the context above. -/
structure ResolveInfo : Type where
  rootSelections : Option (List SelectionNode)
  ctx : QueryCtx

/-- Array.prototype.splice(j, 1): with index some i it removes position i;
with none (JavaScript indexOf returning -1) it removes the last element. -/
def spliceRemove (l : List SelectionNode) : Option Nat → List SelectionNode
  | some i => l.eraseIdx i
  | none => l.dropLast

/-- Second phase of the resolveFragments loop.  After the first fragment
spread has been processed, the local variable `selections` (here sel) has
been rebound to a fresh array, while forEach keeps iterating the original
array, of which rem is the not-yet-visited suffix (the original array is no
longer mutated in this phase, so walking its suffix is the forEach index
loop).  A visited spread is looked up in sel (JavaScript uses indexOf by
object identity; structurally this is the first spread with the same name,
and indexOf -1 maps to splice removing the last element), removed there,
and the fragment body is appended at the end of sel. -/
def rfLoopB (frags : List (String × List SelectionNode)) :
    List SelectionNode → List SelectionNode → Option (List SelectionNode)
  | [], sel => some sel
  | .field _ _ _ :: rem, sel => rfLoopB frags rem sel
  | .spread nm :: rem, sel =>
    match lookupKey frags nm with
    | none => none
    | some body =>
      let sel2 := spliceRemove sel (sel.findIdx? (isSpreadNamed nm))
      rfLoopB frags rem (sel2 ++ body)

/-- First phase of the resolveFragments loop: the local variable
`selections` is still the very array forEach iterates.  done is the visited
prefix (fields only, since processing a spread leaves this phase), rem the
suffix from the forEach index on.  At the first spread, indexOf finds the
current element itself, splice removes it from the iterated array — so the
element right after it shifts under the already-passed index and is never
visited — and `selections` is rebound to the spliced array plus the
fragment body, entering the second phase. -/
def rfLoopA (frags : List (String × List SelectionNode)) :
    List SelectionNode → List SelectionNode → Option (List SelectionNode)
  | done, [] => some done
  | done, .field nm a s :: rem => rfLoopA frags (done ++ [.field nm a s]) rem
  | done, .spread nm :: rem =>
    match lookupKey frags nm with
    | none => none
    | some body => rfLoopB frags (rem.drop 1) (done ++ rem ++ body)

/-- resolveFragments(selections, info): the forEach/splice loop of the
source; none models the TypeError thrown when a referenced fragment is
missing from info.fragments. -/
def resolveFragments (frags : List (String × List SelectionNode))
    (selections : List SelectionNode) : Option (List SelectionNode) :=
  rfLoopA frags [] selections

/-- getSelectedFields(info): resolve fragments on the root selection set and
drop __typename. -/
def getSelectedFields (info : ResolveInfo) : Option (List SelectionNode) :=
  match info.rootSelections with
  | none => some []
  | some ss =>
    (resolveFragments info.ctx.fragments ss).map
      (List.filter (fun f => !(selName f == "__typename")))

/-- getRootFieldNames(info): names of the selected fields that have no
nested selection set. -/
def getRootFieldNames (info : ResolveInfo) : Option (List String) :=
  (getSelectedFields info).map
    (fun l => (l.filter (fun f => !(hasSelSet f))).map selName)

/-- One Sequelize IncludeOptions node as the compiler builds it: model, as,
attributes (none models an absent attributes key), where, order, limit,
separate, required and the nested include list.  A separate or required key
left absent in the source object is modelled by false and undefined
respectively, which is how Sequelize reads them. -/
inductive IncludeNode : Type where
  | mk : String → String → Option (List String) → Option JSVal →
      Option (List (JSVal × JSVal)) → Option JSVal → Bool → JSVal →
      List IncludeNode → IncludeNode

def IncludeNode.model : IncludeNode → String
  | .mk m _ _ _ _ _ _ _ _ => m

def IncludeNode.asName : IncludeNode → String
  | .mk _ a _ _ _ _ _ _ _ => a

def IncludeNode.attributes : IncludeNode → Option (List String)
  | .mk _ _ t _ _ _ _ _ _ => t

def IncludeNode.whereArg : IncludeNode → Option JSVal
  | .mk _ _ _ w _ _ _ _ _ => w

def IncludeNode.order : IncludeNode → Option (List (JSVal × JSVal))
  | .mk _ _ _ _ o _ _ _ _ => o

def IncludeNode.limit : IncludeNode → Option JSVal
  | .mk _ _ _ _ _ l _ _ _ => l

def IncludeNode.separate : IncludeNode → Bool
  | .mk _ _ _ _ _ _ s _ _ => s

def IncludeNode.required : IncludeNode → JSVal
  | .mk _ _ _ _ _ _ _ r _ => r

def IncludeNode.inc : IncludeNode → List IncludeNode
  | .mk _ _ _ _ _ _ _ _ ch => ch

/-- Replace the nested include list of a node, keeping everything else. -/
def IncludeNode.withInc : IncludeNode → List IncludeNode → IncludeNode
  | .mk m a t w o l s r _, ci => .mk m a t w o l s r ci

/-- includes.find(include => include.model === currentModel && include.as
=== foreignField) in applyIncludes. -/
def incKeyMatch (tgt leg : String) (n : IncludeNode) : Bool :=
  n.model == tgt && n.asName == leg

/-- First node matching incKeyMatch, split out together with the part of the
list before and after it. -/
def findKey (tgt leg : String) :
    List IncludeNode →
    Option (List IncludeNode × IncludeNode × List IncludeNode)
  | [] => none
  | n :: rest =>
    if incKeyMatch tgt leg n then some ([], n, rest)
    else
      match findKey tgt leg rest with
      | none => none
      | some (pre, x, post) => some (n :: pre, x, post)

/-- The node applyIncludes pushes when no include exists yet for a path leg:
model, as, attributes = target.primaryKeyAttributes, include; no where,
order, limit, separate or required key. -/
def synthNode (S : Schema) (tgt leg : String) (ci : List IncludeNode) :
    IncludeNode :=
  .mk tgt leg (some (getEntity S tgt).primaryKeyAttributes)
    none none none false .undefined ci

/-- Splitting a character list at every dot, keeping empty pieces:
String.prototype.split('.') at the character level. -/
def splitDotsAux : List Char → List Char → List (List Char)
  | [], acc => [acc.reverse]
  | c :: rest, acc =>
    if c == '.' then acc.reverse :: splitDotsAux rest []
    else splitDotsAux rest (c :: acc)

/-- column.split('.') as a list of strings. -/
def splitDots (s : String) : List String :=
  (splitDotsAux s.data []).map String.mk

/-- column.replace(dollar-regex, ''): drop every dollar character. -/
def stripDollars (s : String) : String :=
  .mk (s.data.filter (fun c => !(c == '$')))

/-- String.prototype.includes('.') of the source, at the character level. -/
def containsDot (s : String) : Bool := s.data.contains '.'

/-- column.replace(dollar, '').split('.') with the terminal column name
popped off: the association legs applyIncludes walks. -/
def legsOf (col : String) : List String :=
  (splitDots (stripDollars col)).dropLast

/-- The while loop of applyIncludes, leg by leg: look the association up
(none models the "No association found" error), reuse the first include
matching (model, as), otherwise push a synthesized node, and descend into
that node's include list.  The second component collects the association
objects handed to the callback, one per leg, as (owner model, association
name) pairs. -/
def applyIncludesGo (S : Schema) :
    List String → String → List IncludeNode →
    Option (List IncludeNode × List (String × String))
  | [], _, incs => some (incs, [])
  | leg :: rest, m, incs =>
    match lookupAssocTarget S m leg with
    | none => none
    | some tgt =>
      match findKey tgt leg incs with
      | some (pre, n, post) =>
        match applyIncludesGo S rest tgt n.inc with
        | none => none
        | some (ci, ch) =>
          some (pre ++ n.withInc ci :: post, (m, leg) :: ch)
      | none =>
        match applyIncludesGo S rest tgt [] with
        | none => none
        | some (ci, ch) =>
          some (incs ++ [synthNode S tgt leg ci], (m, leg) :: ch)

/-- applyIncludes(column, includes, model): resolve a qualified dotted path
against a sibling include list, returning the updated list. -/
def applyIncludes (S : Schema) (column : String)
    (includes : List IncludeNode) (m : String) :
    Option (List IncludeNode) :=
  (applyIncludesGo S (legsOf column) m includes).map Prod.fst

/-- typeof v === 'object' (true for objects, arrays and null). -/
def isObjTy : JSVal → Bool
  | .obj _ => true
  | .arr _ => true
  | .null => true
  | _ => false

mutual
/-- traverseKeys(obj): collect every key of the object and, recursively, of
its object-typed values.  Object.keys(null) throws, modelled by none; on a
string it yields the character indexes, on other primitives nothing. -/
def traverseKeys : JSVal → Option (List String)
  | .obj fs => tkFields fs
  | .arr xs => tkElems 0 xs
  | .null => none
  | .str s => some ((List.range s.length).map toString)
  | _ => some []

def tkFields : List (String × JSVal) → Option (List String)
  | [] => some []
  | (k, v) :: rest =>
    match (if isObjTy v then traverseKeys v else some []), tkFields rest with
    | some a, some b => some (k :: (a ++ b))
    | _, _ => none

def tkElems (i : Nat) : List JSVal → Option (List String)
  | [] => some []
  | v :: rest =>
    match (if isObjTy v then traverseKeys v else some []),
        tkElems (i + 1) rest with
    | some a, some b => some (toString i :: (a ++ b))
    | _, _ => none
end

/-- Deduplication with first-occurrence order, as accumulating keys into a
JavaScript object and reading Object.keys back does. -/
def dedupFirst (seen : List String) : List String → List String
  | [] => []
  | k :: rest =>
    if seen.contains k then dedupFirst seen rest
    else k :: dedupFirst (k :: seen) rest

/-- getAllKeys(obj): deduplicated traverseKeys. -/
def getAllKeys (w : JSVal) : Option (List String) :=
  (traverseKeys w).map (dedupFirst [])

/-- The join-column test of applyWhereIncludes: wrapped in dollar signs on
both ends and containing a dot (startsWith, endsWith and includes of the
source, at the character level). -/
def isJoinColumn (k : String) : Bool :=
  (match k.data with
   | c :: _ => c == '$'
   | [] => false) &&
  (match k.data.getLast? with
   | some c => c == '$'
   | none => false) &&
  containsDot k

/-- joinColumns.forEach(column => applyIncludes(column, includes, model)),
threading the mutated include list left to right. -/
def applyColumns (S : Schema) :
    List String → List IncludeNode → String → Option (List IncludeNode)
  | [], incs, _ => some incs
  | c :: cs, incs, m =>
    match applyIncludes S c incs m with
    | none => none
    | some incs2 => applyColumns S cs incs2 m

/-- applyWhereIncludes(where, includes, model): resolve every join-qualified
key found anywhere in the filter object. -/
def applyWhereIncludes (S : Schema) (w : JSVal)
    (includes : List IncludeNode) (m : String) :
    Option (List IncludeNode) :=
  match getAllKeys w with
  | none => none
  | some ks => applyColumns S (ks.filter isJoinColumn) includes m

/-- One ordering entry of the root query: col and dir as written. -/
structure SQLOrder : Type where
  col : String
  dir : String

/-- One compiled ordering instruction: a same-model (column, direction)
pair, or an association chain (as (owner model, association name) pairs)
followed by column and direction. -/
inductive OrderItem : Type where
  | plain : String → String → OrderItem
  | chain : List (String × String) → String → String → OrderItem

/-- getOrder(orderBys, includes, model): dotted columns are resolved through
applyIncludes (mutating the include list handed to later entries) and emit
the traversed association chain; plain columns pass through. -/
def getOrder (S : Schema) :
    List SQLOrder → List IncludeNode → String →
    Option (List OrderItem × List IncludeNode)
  | [], includes, _ => some ([], includes)
  | ob :: rest, includes, m =>
    if containsDot ob.col then
      match applyIncludesGo S (legsOf ob.col) m includes with
      | none => none
      | some (incs2, ch) =>
        match getOrder S rest incs2 m with
        | none => none
        | some (items, incs3) =>
          some (OrderItem.chain ch (((splitDots ob.col).getLast?).getD "")
            ob.dir :: items, incs3)
    else
      match getOrder S rest includes m with
      | none => none
      | some (items, incs2) =>
        some (OrderItem.plain ob.col ob.dir :: items, incs2)

/-- Resolve one argument value: a variable reference through
info.variableValues (undefined when absent), a literal as itself. -/
def resolveArgValue (vars : List (String × JSVal)) : ArgValueNode → JSVal
  | .varRef v => (lookupKey vars v).getD .undefined
  | .lit j => j

/-- field.arguments.forEach(argument => args[name] = value): build the args
bag by successive property assignment. -/
def bagInsertAll (vars : List (String × JSVal)) :
    List (String × JSVal) → List (String × ArgValueNode) →
    List (String × JSVal)
  | bag, [] => bag
  | bag, (nm, av) :: rest =>
    bagInsertAll vars (setKey bag nm (resolveArgValue vars av)) rest

/-- The args object of a selection field (empty when field.arguments is
absent, which the source skips over). -/
def bagOfField (ctx : QueryCtx) (f : SelectionNode) :
    List (String × JSVal) :=
  bagInsertAll ctx.variableValues [] ((selArguments f).getD [])

/-- args.orderBy.map(order => [order.col, order.dir]): throws (none) unless
the value is an array; each element contributes its col and dir property
reads. -/
def opMap : List JSVal → Option (List (JSVal × JSVal))
  | [] => some []
  | v :: rest =>
    match jsProp v "col", jsProp v "dir", opMap rest with
    | some c, some d, some r => some ((c, d) :: r)
    | _, _, _ => none

def jsOrderPairs : JSVal → Option (List (JSVal × JSVal))
  | .arr xs => opMap xs
  | _ => none

/-- The values the argument if-chain of getIncludes produces: required,
where, order, limit and the separate flag. -/
structure ExtractedArgs : Type where
  required : JSVal
  whereArg : Option JSVal
  order : Option (List (JSVal × JSVal))
  limit : Option JSVal
  separate : Bool

/-- The if-chain over the args bag: required and where are copied when the
key is present; orderBy maps to order pairs and forces separate; a present
and truthy limit is kept and forces separate. -/
def extractArgs (bag : List (String × JSVal)) : Option ExtractedArgs :=
  let required := if hasKey bag "required" then getKeyD bag "required"
    else .bool false
  let whereArg := if hasKey bag "where" then some (getKeyD bag "where")
    else none
  let ord : Option (Option (List (JSVal × JSVal)) × Bool) :=
    if hasKey bag "orderBy" then
      match jsOrderPairs (getKeyD bag "orderBy") with
      | none => none
      | some os => some (some os, true)
    else some (none, false)
  match ord with
  | none => none
  | some (order, sep1) =>
    let hl := hasKey bag "limit" && truthy (getKeyD bag "limit")
    some ⟨required, whereArg, order,
      if hl then some (getKeyD bag "limit") else none, sep1 || hl⟩

/-- The expanded nested selection list of a field: resolveFragments on its
selection set, or the empty list when it has none. -/
def selectionsOf (ctx : QueryCtx) (f : SelectionNode) :
    Option (List SelectionNode) :=
  match selSelectionSet f with
  | some ss => resolveFragments ctx.fragments ss
  | none => some []

/-- args.where || emptyObject and args.where || undefined of the source. -/
def jsOrElse : Option JSVal → JSVal → JSVal
  | some v, d => if truthy v then v else d
  | none, d => d

def jsOrUndefined : Option JSVal → Option JSVal
  | some v => if truthy v then some v else none
  | none => none

/-- The body of the getIncludes map for one association field: expand its
selection set, resolve the target model (the else branch is the "Field
Entity.field not supported" throw), project leaf attributes known on the
target, prepend the primary key, run the argument if-chain, recurse for the
children (the inner match-and-fold is getIncludes inlined so the recursion
is structural on fuel) and bind the node's own where filter against them.
The fuel argument bounds the recursion depth; the source recurses without
bound on a cyclic fragment graph, which fuel 0 maps to none. -/
def buildIncludeNode (S : Schema) :
    Nat → QueryCtx → String → SelectionNode → Option IncludeNode
  | fuel, ctx, pm, f =>
    match selectionsOf ctx f with
    | none => none
    | some sels =>
      match lookupAssocTarget S pm (selName f) with
      | none => none
      | some tgt =>
        let leafNames := (sels.filter (fun g => !(hasSelSet g))).map selName
        let attrs0 := leafNames.filter
          (fun v => (getEntity S tgt).rawAttributes.contains v)
        let attrs :=
          match (getEntity S tgt).primaryKeyAttribute with
          | some k => if attrs0.contains k then attrs0 else k :: attrs0
          | none => attrs0
        match extractArgs (bagOfField ctx f) with
        | none => none
        | some ea =>
          match (match fuel with
                 | 0 => none
                 | Nat.succ fuel2 =>
                   (sels.filter (fun g =>
                       (lookupAssocTarget S tgt (selName g)).isSome)).foldr
                     (fun g acc =>
                       match buildIncludeNode S fuel2 ctx tgt g, acc with
                       | some n, some r => some (n :: r)
                       | _, _ => none)
                     (some [])) with
          | none => none
          | some children =>
            match applyWhereIncludes S (jsOrElse ea.whereArg (.obj []))
                children tgt with
            | none => none
            | some children2 =>
              some (.mk tgt (selName f)
                (if sels.length > 0 then some attrs else none)
                ea.whereArg ea.order ea.limit ea.separate ea.required
                children2)

/-- nestedFields.map over the include-node builder, propagating a thrown
error. -/
def buildNodeList (S : Schema) (fuel : Nat) (ctx : QueryCtx)
    (pm : String) : List SelectionNode → Option (List IncludeNode)
  | [] => some []
  | f :: fs =>
    match buildIncludeNode S fuel ctx pm f,
        buildNodeList S fuel ctx pm fs with
    | some n, some rest => some (n :: rest)
    | _, _ => none

/-- getIncludes(fields, info, parentModel): keep the fields naming a known
association and build one include node for each, in order. -/
def getIncludes (S : Schema) (fuel : Nat) (ctx : QueryCtx)
    (fields : List SelectionNode) (parentModel : String) :
    Option (List IncludeNode) :=
  match fuel with
  | 0 => none
  | Nat.succ fuel2 =>
    buildNodeList S fuel2 ctx parentModel
      (fields.filter
        (fun f => (lookupAssocTarget S parentModel (selName f)).isSome))

/-- The top-level request arguments of getSequelizeQuery. -/
structure SQLQueryArgs : Type where
  whereArg : Option JSVal
  orderBy : Option (List SQLOrder)
  limit : Option Int
  offset : Option Int

/-- The FindOptions object getSequelizeQuery returns. -/
structure FindOptions : Type where
  whereArg : Option JSVal
  inc : List IncludeNode
  attributes : List String
  limit : Int
  order : List OrderItem

/-- getSequelizeQuery(args, info, model): root attributes are the selected
leaf names known on the model (with no primary-key insertion), the include
list is built by getIncludes then extended by applyWhereIncludes on
args.where and by getOrder on dotted order columns, the limit defaults to
100 when args.limit is absent or zero, and args.offset is never read. -/
def getSequelizeQuery (S : Schema) (fuel : Nat) (args : SQLQueryArgs)
    (info : ResolveInfo) (model : String) : Option FindOptions :=
  match getSelectedFields info, getRootFieldNames info with
  | some fields, some rootNames =>
    let attributes := rootNames.filter
      (fun fn => (getEntity S model).rawAttributes.contains fn)
    match getIncludes S fuel info.ctx fields model with
    | none => none
    | some inc0 =>
      match applyWhereIncludes S (jsOrElse args.whereArg (.obj []))
          inc0 model with
      | none => none
      | some inc1 =>
        match (match args.orderBy with
               | some obs => getOrder S obs inc1 model
               | none => some ([], inc1)) with
        | none => none
        | some (orderItems, inc2) =>
          some ⟨jsOrUndefined args.whereArg, inc2, attributes,
            (match args.limit with
             | some n => if n == 0 then 100 else n
             | none => 100),
            orderItems⟩
  | _, _ => none

mutual
/-- Well-formedness of a sibling include list under a parent model: each
node's model is the target of the parent association named by its alias,
aliases are pairwise distinct among siblings, and each node's children are
well formed under its model. -/
def WFList (S : Schema) (parent : String) : List IncludeNode → Bool
  | [] => true
  | n :: rest =>
    WFNode S parent n && rest.all (fun x => !(x.asName == n.asName)) &&
      WFList S parent rest

def WFNode (S : Schema) (parent : String) : IncludeNode → Bool
  | .mk m a _ _ _ _ _ _ ch =>
    (lookupAssocTarget S parent a == some m) && WFList S m ch
end

/-- Number of sibling nodes carrying a given alias. -/
def countAlias (a : String) : List IncludeNode → Nat
  | [] => 0
  | n :: rest => (if n.asName == a then 1 else 0) + countAlias a rest

/-- A dotted path is realized in an include list when each association leg
has exactly one sibling node with that alias and the next leg is realized in
that node's children. -/
def realizesAlias (S : Schema) :
    List String → String → List IncludeNode → Bool
  | [], _, _ => true
  | leg :: rest, m, incs =>
    match lookupAssocTarget S m leg with
    | none => false
    | some tgt =>
      (countAlias leg incs == 1) &&
      match findKey tgt leg incs with
      | some (_, n, _) => realizesAlias S rest tgt n.inc
      | none => false

mutual
/-- Every node of the tree whose model declares a primaryKeyAttribute and
whose attributes key is a concrete list has that key in the list. -/
def pkOkList (S : Schema) : List IncludeNode → Bool
  | [] => true
  | n :: rest => pkOkNode S n && pkOkList S rest

def pkOkNode (S : Schema) : IncludeNode → Bool
  | .mk m _ t _ _ _ _ _ ch =>
    (match (getEntity S m).primaryKeyAttribute, t with
     | some k, some l => l.contains k
     | _, _ => true) && pkOkList S ch
end

/-- Modelling hypothesis relating the two primary-key views of Sequelize
model classes: primaryKeyAttribute, when declared, is listed in
primaryKeyAttributes. -/
def schemaPkConsistent (S : Schema) : Bool :=
  S.all (fun e =>
    match e.2.primaryKeyAttribute with
    | some k => e.2.primaryKeyAttributes.contains k
    | none => true)

mutual
/-- All nodes of an include tree, the node itself included. -/
def allNodesN : IncludeNode → List IncludeNode
  | .mk m a t w o l s r ch => .mk m a t w o l s r ch :: allNodesL ch

def allNodesL : List IncludeNode → List IncludeNode
  | [] => []
  | n :: rest => allNodesN n ++ allNodesL rest
end

/-- Everything of a node except its children. -/
def IncludeNode.header (n : IncludeNode) :
    String × String × Option (List String) × Option JSVal ×
    Option (List (JSVal × JSVal)) × Option JSVal × Bool × JSVal :=
  (n.model, n.asName, n.attributes, n.whereArg, n.order, n.limit,
   n.separate, n.required)

/-- A selection list with no fragment spread. -/
def spreadFree (l : List SelectionNode) : Bool := l.all isField

/-- Concrete schema with a self association, after the end-to-end example of
the specification. -/
def PersonE : EntityData :=
  ⟨"Person", ["id", "name", "bestFriendId"], some "id", ["id"],
   [("bestFriend", "Person")]⟩

def S1 : Schema := [("Person", PersonE)]

/-- Concrete three-level schema after the qualified-filter example of the
specification. -/
def OrderE : EntityData :=
  ⟨"Order", ["id", "total", "customerId"], some "id", ["id"],
   [("customer", "Customer")]⟩

def CustomerE : EntityData :=
  ⟨"Customer", ["id", "region"], some "id", ["id"], [("nation", "Nation")]⟩

def NationE : EntityData :=
  ⟨"Nation", ["id", "code"], some "id", ["id"], []⟩

def S2 : Schema := [("Order", OrderE), ("Customer", CustomerE),
  ("Nation", NationE)]

def fieldX : SelectionNode := .field "X" none none

def fieldB : SelectionNode := .field "B" none none

def frags0 : List (String × List SelectionNode) := [("f", [fieldX])]

/-- Root request with no arguments at all. -/
def args0 : SQLQueryArgs := ⟨none, none, none, none⟩

/-- Selection requesting a known attribute and an unknown field. -/
def info1 : ResolveInfo :=
  ⟨some [.field "name" none none, .field "bogus" none none], ⟨[], []⟩⟩

/-- Selection requesting only the known attribute. -/
def info1b : ResolveInfo := ⟨some [.field "name" none none], ⟨[], []⟩⟩

/-- Association selection whose nested list has a subfield but no leaf. -/
def fieldCustNation : SelectionNode :=
  .field "customer" none (some [.field "nation" none
    (some [.field "id" none none])])

def info3 : ResolveInfo := ⟨some [fieldCustNation], ⟨[], []⟩⟩

/-- Association selection carrying an orderBy argument. -/
def fieldCustOrdered : SelectionNode :=
  .field "customer"
    (some [("orderBy", .lit (.arr [.obj [("col", .str "id"),
      ("dir", .str "ASC")]]))])
    (some [.field "id" none none])

def info4 : ResolveInfo := ⟨some [fieldCustOrdered], ⟨[], []⟩⟩

/-- An empty request. -/
def infoE : ResolveInfo := ⟨none, ⟨[], []⟩⟩

/-- The primary-key-only projection of an entity. -/
def pkOnly (e : EntityData) : List String :=
  match e.primaryKeyAttribute with
  | some k => [k]
  | none => []

def c5node : IncludeNode :=
  .mk "Customer" "customer" (some ["id"]) none
    (some [(.str "id", .str "ASC")]) none true (.bool false) []

def c7nodeNation : IncludeNode :=
  .mk "Nation" "nation" (some ["id"]) none none none false (.bool false) []

def c7node : IncludeNode :=
  .mk "Customer" "customer" (some ["id"]) none none none false (.bool false)
    [c7nodeNation]

def c2incs : List IncludeNode := [synthNode S2 "Customer" "customer" []]

def c2out : List IncludeNode :=
  [synthNode S2 "Customer" "customer" [synthNode S2 "Nation" "nation" []]]

/-- What a node synthesized by the Join-Path Resolver looks like. -/
def synthShape (S : Schema) (x : IncludeNode) : Prop :=
  x.attributes = some (getEntity S x.model).primaryKeyAttributes ∧
  x.whereArg = none ∧ x.order = none ∧ x.limit = none ∧
  truthy x.required = false

/-- The primary-key side condition of one node, children aside. -/
def headPkOk (S : Schema) (n : IncludeNode) : Bool :=
  match (getEntity S n.model).primaryKeyAttribute, n.attributes with
  | some k, some l => l.contains k
  | _, _ => true

/-- The attribute list of an include node: selected leaf names known on the
target, with the primary key prepended when absent. -/
def pkPrependAttrs (S : Schema) (tgt : String)
    (sels : List SelectionNode) : List String :=
  let leafNames := (sels.filter (fun g => !(hasSelSet g))).map selName
  let attrs0 := leafNames.filter
    (fun v => (getEntity S tgt).rawAttributes.contains v)
  match (getEntity S tgt).primaryKeyAttribute with
  | some k => if attrs0.contains k then attrs0 else k :: attrs0
  | none => attrs0

/-- The second loop phase leaves sel untouched when only fields remain. -/
theorem rfLoopB_allFields (frags : List (String × List SelectionNode)) :
    ∀ (rem sel : List SelectionNode), (∀ x ∈ rem, isField x = true) →
      rfLoopB frags rem sel = some sel := by
  intro rem
  induction rem with
  | nil => intro sel _; rfl
  | cons a rest ih =>
    intro sel h
    cases a with
    | field nm ar ss => exact ih sel (fun x hx => h x (List.mem_cons_of_mem _ hx))
    | spread nm =>
      have := h (.spread nm) (List.mem_cons_self _ _)
      simp [isField] at this

/-- The first loop phase walks a field-only list without changing it. -/
theorem rfLoopA_allFields (frags : List (String × List SelectionNode)) :
    ∀ (rem done : List SelectionNode), (∀ x ∈ rem, isField x = true) →
      rfLoopA frags done rem = some (done ++ rem) := by
  intro rem
  induction rem with
  | nil => intro done _; simp [rfLoopA]
  | cons a rest ih =>
    intro done h
    cases a with
    | field nm ar ss =>
      have := ih (done ++ [.field nm ar ss])
        (fun x hx => h x (List.mem_cons_of_mem _ hx))
      simp [rfLoopA, this]
    | spread nm =>
      have := h (.spread nm) (List.mem_cons_self _ _)
      simp [isField] at this

/-- Walking a field-only prefix moves it to the visited side. -/
theorem rfLoopA_fields_skip (frags : List (String × List SelectionNode)) :
    ∀ (A done rem : List SelectionNode), (∀ x ∈ A, isField x = true) →
      rfLoopA frags done (A ++ rem) = rfLoopA frags (done ++ A) rem := by
  intro A
  induction A with
  | nil => intro done rem _; simp
  | cons a rest ih =>
    intro done rem h
    cases a with
    | field nm ar ss =>
      have h2 := ih (done ++ [.field nm ar ss]) rem
        (fun x hx => h x (List.mem_cons_of_mem _ hx))
      simp [rfLoopA, h2]
    | spread nm =>
      have := h (.spread nm) (List.mem_cons_self _ _)
      simp [isField] at this

theorem spreadFree_forall {l : List SelectionNode} (h : spreadFree l = true) :
    ∀ x ∈ l, isField x = true := by
  intro x hx
  exact List.all_eq_true.mp h x hx

/-- resolveFragments leaves a spread-free selection list unchanged; shared
helper behind several results below. -/
theorem resolveFragments_spreadFree_id (frags : List (String × List SelectionNode))
    (sels : List SelectionNode) (h : spreadFree sels = true) :
    resolveFragments frags sels = some sels := by
  have := rfLoopA_allFields frags sels [] (spreadFree_forall h)
  simpa [resolveFragments] using this

/-- C3 (corrected): for a selection list with a single fragment spread,
resolveFragments removes the spread and appends the fragment's selections
unexpanded at the END of the list, preserving the relative order of the
surrounding concrete fields.  The contents are not spliced in at the
reference position and are not recursively expanded, against the claim. -/
theorem resolveFragments_single_spread_append (frags : List (String × List SelectionNode))
    (A B F : List SelectionNode) (f : String)
    (hA : spreadFree A = true) (hB : spreadFree B = true)
    (hf : lookupKey frags f = some F) :
    resolveFragments frags (A ++ .spread f :: B) = some (A ++ B ++ F) := by
  unfold resolveFragments
  rw [rfLoopA_fields_skip frags A [] (.spread f :: B) (spreadFree_forall hA)]
  rw [rfLoopA]
  simp only [hf]
  rw [rfLoopB_allFields]
  · simp
  · intro x hx
    exact spreadFree_forall hB x (List.drop_subset _ _ hx)

/-- C10: two argument records differing only in offset compile to exactly
the same FindOptions — getSequelizeQuery never reads args.offset. -/
theorem getSequelizeQuery_offset_unobserved (S : Schema) (fuel : Nat) (w : Option JSVal)
    (ob : Option (List SQLOrder)) (l : Option Int) (o1 o2 : Option Int)
    (info : ResolveInfo) (m : String) :
    getSequelizeQuery S fuel ⟨w, ob, l, o1⟩ info m =
    getSequelizeQuery S fuel ⟨w, ob, l, o2⟩ info m := rfl

/-- C8: when args.limit is absent, the FindOptions produced by
getSequelizeQuery has limit = 100. -/
theorem getSequelizeQuery_default_limit (S : Schema) (fuel : Nat) (args : SQLQueryArgs)
    (info : ResolveInfo) (m : String) (p : FindOptions)
    (h1 : args.limit = none)
    (h2 : getSequelizeQuery S fuel args info m = some p) :
    p.limit = 100 := by
  rw [getSequelizeQuery] at h2
  split at h2
  · split at h2
    · exact Option.noConfusion h2
    · split at h2
      · exact Option.noConfusion h2
      · split at h2
        · exact Option.noConfusion h2
        · cases h2
          simp [h1]
  · exact Option.noConfusion h2

/-- Witness: the default limit at a concrete empty request. -/
theorem getSequelizeQuery_default_limit_witness : (⟨none, [], [], 100, []⟩ : FindOptions).limit = 100 :=
  getSequelizeQuery_default_limit S1 1 args0 infoE "Person" ⟨none, [], [], 100, []⟩ rfl rfl

/-- C1 counterexample: compiling a selection containing the field bogus,
which is neither an attribute nor an association of Person, does not fail:
a plan is returned, against the claim that compilation aborts with
"Field Person.bogus not supported". -/
theorem unknownField_plan_returned : (getSequelizeQuery S1 10 args0 info1 "Person").isSome = true := rfl

/-- C4 counterexample: the root node built by getSequelizeQuery projects
exactly the selected known attributes with no primary-key insertion:
selecting only name on Person yields attributes = [name], which does not
contain the declared primary key id. -/
theorem root_attributes_omit_primary_key :
    (getSequelizeQuery S1 10 args0 info1 "Person").map FindOptions.attributes
      = some ["name"] ∧
    (getEntity S1 "Person").primaryKeyAttribute = some "id" ∧
    ¬ ("id" ∈ (["name"] : List String)) := ⟨rfl, rfl, by decide⟩

/-- C7 counterexample: for the association selection customer containing
only the non-leaf subfield nation, the customer include node has a concrete
attributes list, some [id], not an absent attributes key as claimed. -/
theorem no_leaf_selection_concrete_attributes :
    (getSequelizeQuery S2 10 args0 info3 "Order").map
      (fun p => p.inc.map IncludeNode.attributes) = some [some ["id"]] ∧
    (some ["id"] : Option (List String)) ≠ none := ⟨rfl, by decide⟩

/-- C3 counterexample: expanding [spread f, B] where fragment f selects X
yields [B, X], not the claimed in-position splice [X, B]: fragment contents
go to the end of the list. -/
theorem resolveFragments_appends_not_splices :
    (resolveFragments frags0 [.spread "f", fieldB]).map (List.map selName)
      = some ["B", "X"] ∧ (["B", "X"] : List String) ≠ ["X", "B"] :=
  ⟨rfl, by decide⟩

/-- getRootFieldNames under a known getSelectedFields result. -/
theorem getRootFieldNames_eq {info : ResolveInfo} {F : List SelectionNode}
    (h : getSelectedFields info = some F) :
    getRootFieldNames info =
      some ((F.filter (fun f => !(hasSelSet f))).map selName) := by
  rw [getRootFieldNames, h]
  rfl

/-- Two requests sharing the context compile identically when their expanded
selections agree on projected attributes and on association fields. -/
theorem getSeq_congr (S : Schema) (fuel : Nat) (args : SQLQueryArgs)
    (m : String) (info₁ info₂ : ResolveInfo) (F₁ F₂ : List SelectionNode)
    (h₁ : getSelectedFields info₁ = some F₁)
    (h₂ : getSelectedFields info₂ = some F₂)
    (hctx : info₁.ctx = info₂.ctx)
    (hattrs : ((F₁.filter (fun f => !(hasSelSet f))).map selName).filter
        (fun fn => (getEntity S m).rawAttributes.contains fn) =
      ((F₂.filter (fun f => !(hasSelSet f))).map selName).filter
        (fun fn => (getEntity S m).rawAttributes.contains fn))
    (hassoc : F₁.filter
        (fun f => (lookupAssocTarget S m (selName f)).isSome) =
      F₂.filter (fun f => (lookupAssocTarget S m (selName f)).isSome)) :
    getSequelizeQuery S fuel args info₁ m =
    getSequelizeQuery S fuel args info₂ m := by
  have hR₁ := getRootFieldNames_eq h₁
  have hR₂ := getRootFieldNames_eq h₂
  have hinc : getIncludes S fuel info₁.ctx F₁ m =
      getIncludes S fuel info₂.ctx F₂ m := by
    rw [hctx]
    unfold getIncludes
    cases fuel with
    | zero => rfl
    | succ f2 => simp only [hassoc]
  simp only [getSequelizeQuery, h₁, h₂, hR₁, hR₂, hattrs, hinc]

/-- Filtering past an element the predicate rejects. -/
theorem filter_mid_out {α : Type} (p : α → Bool) (l1 l2 : List α) (x : α)
    (hx : p x = false) :
    (l1 ++ x :: l2).filter p = (l1 ++ l2).filter p := by
  simp [List.filter_append, List.filter_cons, hx]

theorem spreadFree_mid (l1 l2 : List SelectionNode) (nm : String)
    (ar : Option (List (String × ArgValueNode)))
    (ss : Option (List SelectionNode))
    (h1 : spreadFree l1 = true) (h2 : spreadFree l2 = true) :
    spreadFree (l1 ++ .field nm ar ss :: l2) = true := by
  simp only [spreadFree, List.all_append, List.all_cons] at *
  simp [h1, h2, isField]

/-- C1 (corrected): a selection field matching neither an attribute nor an
association of the entity is silently ignored — the compiled plan equals
the plan for the selection without that field, and no error is raised.  The
"Field Entity.field not supported" throw in getIncludes is unreachable
because getIncludes first filters the selection down to fields naming a
known association. -/
theorem getSequelizeQuery_unknown_field_ignored (S : Schema) (fuel : Nat) (args : SQLQueryArgs) (m : String)
    (ctx : QueryCtx) (l1 l2 : List SelectionNode) (nm : String)
    (ar : Option (List (String × ArgValueNode)))
    (ss : Option (List SelectionNode))
    (h1 : spreadFree l1 = true) (h2 : spreadFree l2 = true)
    (hty : (nm == "__typename") = false)
    (hattr : (getEntity S m).rawAttributes.contains nm = false)
    (hassoc : lookupAssocTarget S m nm = none) :
    getSequelizeQuery S fuel args ⟨some (l1 ++ .field nm ar ss :: l2), ctx⟩ m
      = getSequelizeQuery S fuel args ⟨some (l1 ++ l2), ctx⟩ m := by
  have hsf1 : spreadFree (l1 ++ .field nm ar ss :: l2) = true :=
    spreadFree_mid l1 l2 nm ar ss h1 h2
  have hsf2 : spreadFree (l1 ++ l2) = true := by
    simp only [spreadFree, List.all_append] at *
    simp_all
  have hrf1 : resolveFragments ctx.fragments (l1 ++ .field nm ar ss :: l2)
      = some (l1 ++ .field nm ar ss :: l2) := resolveFragments_spreadFree_id _ _ hsf1
  have hrf2 : resolveFragments ctx.fragments (l1 ++ l2) = some (l1 ++ l2) :=
    resolveFragments_spreadFree_id _ _ hsf2
  have hsel1 : getSelectedFields ⟨some (l1 ++ .field nm ar ss :: l2), ctx⟩
      = some ((l1 ++ .field nm ar ss :: l2).filter
          (fun f => !(selName f == "__typename"))) := by
    rw [getSelectedFields]
    simp only [hrf1]
    rfl
  have hsel2 : getSelectedFields ⟨some (l1 ++ l2), ctx⟩
      = some ((l1 ++ l2).filter (fun f => !(selName f == "__typename"))) := by
    rw [getSelectedFields]
    simp only [hrf2]
    rfl
  have hattr2 : nm ∉ (getEntity S m).rawAttributes := by
    simpa using hattr
  refine getSeq_congr S fuel args m _ _ _ _ hsel1 hsel2 rfl ?_ ?_
  · cases ss with
    | none =>
      simp [List.filter_append, List.filter_cons, selName, hasSelSet,
        selSelectionSet, hty, hattr2]
    | some ss0 =>
      simp [List.filter_append, List.filter_cons, selName, hasSelSet,
        selSelectionSet, hty, hattr2]
  · simp [List.filter_append, List.filter_cons, selName, hty, hassoc]

/-- The argument if-chain forces separate for orderBy and for a truthy
limit, and only those two branches ever set order or limit. -/
theorem extractArgs_separate {bag : List (String × JSVal)}
    {ea : ExtractedArgs} (h : extractArgs bag = some ea) :
    (hasKey bag "orderBy" = true → ea.separate = true) ∧
    ((hasKey bag "limit" && truthy (getKeyD bag "limit")) = true →
      ea.separate = true) ∧
    (ea.order.isSome = true → ea.separate = true) ∧
    (ea.limit.isSome = true → ea.separate = true) := by
  unfold extractArgs at h
  cases hO : hasKey bag "orderBy" with
  | true =>
    simp only [hO, if_true] at h
    cases hop : jsOrderPairs (getKeyD bag "orderBy") with
    | none => simp [hop] at h
    | some os =>
      simp only [hop] at h
      cases h
      simp
  | false =>
    simp only [hO, Bool.false_eq_true, if_false] at h
    cases h
    cases hl : (hasKey bag "limit" && truthy (getKeyD bag "limit")) with
    | true => simp [hl]
    | false => simp [hl]

/-- A successfully built include node carries exactly the values the
argument if-chain produced. -/
theorem buildIncludeNode_args {S : Schema} {fuel : Nat} {ctx : QueryCtx}
    {pm : String} {f : SelectionNode} {n : IncludeNode}
    (h : buildIncludeNode S fuel ctx pm f = some n) :
    ∃ ea, extractArgs (bagOfField ctx f) = some ea ∧
      n.order = ea.order ∧ n.limit = ea.limit ∧
      n.separate = ea.separate ∧ n.required = ea.required ∧
      n.whereArg = ea.whereArg := by
  unfold buildIncludeNode at h
  repeat' split at h
  any_goals exact Option.noConfusion h
  all_goals
    cases h
    exact ⟨_, by assumption, rfl, rfl, rfl, rfl, rfl⟩

/-- A selection list whose members all have nested selections contributes
no leaf names. -/
theorem filter_not_hasSelSet_nil {l : List SelectionNode}
    (h : ∀ a ∈ l, hasSelSet a = true) :
    l.filter (fun g => !(hasSelSet g)) = [] := by
  rw [List.filter_eq_nil_iff]
  intro a ha
  simp [h a ha]

/-- Attributes of a built node as a function of the expanded selection
list. -/
theorem buildIncludeNode_attrs {S : Schema} {fuel : Nat} {ctx : QueryCtx}
    {pm : String} {f : SelectionNode} {n : IncludeNode}
    (h : buildIncludeNode S fuel ctx pm f = some n) :
    ∃ sels, selectionsOf ctx f = some sels ∧
      (sels = [] → n.attributes = none) ∧
      (sels ≠ [] → sels.all hasSelSet = true →
        n.attributes = some (pkOnly (getEntity S n.model))) := by
  unfold buildIncludeNode at h
  repeat' split at h
  any_goals exact Option.noConfusion h
  all_goals
    cases h
    refine ⟨_, by assumption, ?_, ?_⟩
    · intro he
      subst he
      simp_all [IncludeNode.attributes]
    · intro hne hall
      simp only [List.all_eq_true] at hall
      simp_all [IncludeNode.attributes, IncludeNode.model, pkOnly,
        filter_not_hasSelSet_nil hall]

/-- C5: an include node built by getIncludes (buildIncludeNode is the body
of its map over association fields) from a field carrying an orderBy
argument or a truthy limit argument has separate = true; equivalently, a
produced node carrying an order value or a limit value has
separate = true. -/
theorem buildIncludeNode_orderBy_limit_separate (S : Schema) (fuel : Nat) (ctx : QueryCtx) (pm : String)
    (f : SelectionNode) (n : IncludeNode)
    (h : buildIncludeNode S fuel ctx pm f = some n) :
    ((hasKey (bagOfField ctx f) "orderBy" = true ∨
      (hasKey (bagOfField ctx f) "limit" &&
        truthy (getKeyD (bagOfField ctx f) "limit")) = true) →
      n.separate = true) ∧
    ((n.order.isSome = true ∨ n.limit.isSome = true) →
      n.separate = true) := by
  obtain ⟨ea, hea, ho, hl, hsep, -, -⟩ := buildIncludeNode_args h
  obtain ⟨e1, e2, e3, e4⟩ := extractArgs_separate hea
  constructor
  · rintro (hc | hc)
    · rw [hsep]; exact e1 hc
    · rw [hsep]; exact e2 hc
  · rintro (hc | hc)
    · rw [hsep]; exact e3 (by rw [← ho]; exact hc)
    · rw [hsep]; exact e4 (by rw [← hl]; exact hc)

/-- Witness: the customer node built from a selection with an orderBy
argument. -/
theorem buildIncludeNode_orderBy_limit_separate_witness : c5node.separate = true :=
  (buildIncludeNode_orderBy_limit_separate S2 5 ⟨[], []⟩ "Order" fieldCustOrdered c5node rfl).1 (Or.inl rfl)

/-- C7 (corrected): the include node's attributes key is absent exactly
when the expanded nested selection list is empty; when subfields exist but
none is a leaf, attributes is the concrete primary-key-only list (empty if
the target declares no primary key). -/
theorem buildIncludeNode_attributes_presence (S : Schema) (fuel : Nat) (ctx : QueryCtx) (pm : String)
    (f : SelectionNode) (n : IncludeNode) (sels : List SelectionNode)
    (hsels : selectionsOf ctx f = some sels)
    (h : buildIncludeNode S fuel ctx pm f = some n) :
    (sels = [] → n.attributes = none) ∧
    (sels ≠ [] → sels.all hasSelSet = true →
      n.attributes = some (pkOnly (getEntity S n.model))) := by
  obtain ⟨sels2, h1, h2, h3⟩ := buildIncludeNode_attrs h
  rw [hsels] at h1
  cases h1
  exact ⟨h2, h3⟩

/-- Witness: the customer node of a leafless nested selection projects
exactly the primary key. -/
theorem buildIncludeNode_attributes_presence_witness : c7node.attributes =
    some (pkOnly (getEntity S2 c7node.model)) :=
  (buildIncludeNode_attributes_presence S2 5 ⟨[], []⟩ "Order" fieldCustNation c7node
      [.field "nation" none (some [.field "id" none none])] rfl rfl).2
    (List.cons_ne_nil _ _) rfl

theorem str_beq_comm (a b : String) : (a == b) = (b == a) := by
  by_cases h : a = b
  · simp [h]
  · simp [h, Ne.symm h]

theorem withInc_model (n : IncludeNode) (ci : List IncludeNode) :
    (n.withInc ci).model = n.model := by cases n; rfl

theorem withInc_asName (n : IncludeNode) (ci : List IncludeNode) :
    (n.withInc ci).asName = n.asName := by cases n; rfl

theorem withInc_inc (n : IncludeNode) (ci : List IncludeNode) :
    (n.withInc ci).inc = ci := by cases n; rfl

theorem withInc_withInc (n : IncludeNode) (ci ci2 : List IncludeNode) :
    (n.withInc ci).withInc ci2 = n.withInc ci2 := by cases n; rfl

theorem withInc_header (n : IncludeNode) (ci : List IncludeNode) :
    (n.withInc ci).header = n.header := by cases n; rfl

theorem incKeyMatch_withInc (tgt leg : String) (n : IncludeNode)
    (ci : List IncludeNode) :
    incKeyMatch tgt leg (n.withInc ci) = incKeyMatch tgt leg n := by
  cases n; rfl

theorem findKey_some_split {tgt leg : String} {l pre post : List IncludeNode}
    {n : IncludeNode} (h : findKey tgt leg l = some (pre, n, post)) :
    l = pre ++ n :: post ∧ incKeyMatch tgt leg n = true ∧
      ∀ x ∈ pre, incKeyMatch tgt leg x = false := by
  induction l generalizing pre with
  | nil => simp [findKey] at h
  | cons a rest ih =>
    rw [findKey] at h
    split at h
    · cases h
      exact ⟨rfl, by assumption, by simp⟩
    · rename_i hm
      cases hfk : findKey tgt leg rest with
      | none => rw [hfk] at h; exact Option.noConfusion h
      | some trip =>
        obtain ⟨pre2, x, post2⟩ := trip
        rw [hfk] at h
        cases h
        obtain ⟨he, hx, hpre⟩ := ih hfk
        refine ⟨by rw [he]; simp, hx, ?_⟩
        intro y hy
        rcases List.mem_cons.mp hy with hy | hy
        · subst hy
          exact Bool.not_eq_true _ ▸ (by simpa using hm)
        · exact hpre y hy

theorem findKey_none_forall {tgt leg : String} {l : List IncludeNode}
    (h : findKey tgt leg l = none) :
    ∀ x ∈ l, incKeyMatch tgt leg x = false := by
  induction l with
  | nil => intro x hx; simp at hx
  | cons a rest ih =>
    rw [findKey] at h
    split at h
    · exact Option.noConfusion h
    · rename_i hm
      cases hfk : findKey tgt leg rest with
      | none =>
        intro x hx
        rcases List.mem_cons.mp hx with hx | hx
        · subst hx; simpa using hm
        · exact ih hfk x hx
      | some trip => obtain ⟨p, y, q⟩ := trip; rw [hfk] at h; exact Option.noConfusion h

theorem findKey_append_first {tgt leg : String}
    {pre post : List IncludeNode} {n : IncludeNode}
    (hpre : ∀ x ∈ pre, incKeyMatch tgt leg x = false)
    (hn : incKeyMatch tgt leg n = true) :
    findKey tgt leg (pre ++ n :: post) = some (pre, n, post) := by
  induction pre with
  | nil => simp [findKey, hn]
  | cons a rest ih =>
    have ha := hpre a (List.mem_cons_self _ _)
    rw [List.cons_append, findKey, ha]
    simp only [Bool.false_eq_true, if_false]
    rw [ih (fun x hx => hpre x (List.mem_cons_of_mem _ hx))]

theorem WFList_cons {S : Schema} {p : String} {n : IncludeNode}
    {rest : List IncludeNode} :
    WFList S p (n :: rest) = true ↔
      WFNode S p n = true ∧
      (∀ x ∈ rest, (x.asName == n.asName) = false) ∧
      WFList S p rest = true := by
  rw [WFList]
  constructor
  · intro h
    simp only [Bool.and_eq_true] at h
    obtain ⟨⟨h1, h2⟩, h3⟩ := h
    refine ⟨h1, ?_, h3⟩
    intro x hx
    have := List.all_eq_true.mp h2 x hx
    simpa using this
  · intro ⟨h1, h2, h3⟩
    simp only [Bool.and_eq_true]
    refine ⟨⟨h1, ?_⟩, h3⟩
    rw [List.all_eq_true]
    intro x hx
    simpa using h2 x hx

theorem WFNode_parts {S : Schema} {p : String} {n : IncludeNode}
    (h : WFNode S p n = true) :
    lookupAssocTarget S p n.asName = some n.model ∧
      WFList S n.model n.inc = true := by
  cases n with
  | mk m a t w o l s r ch =>
    rw [WFNode] at h
    simp only [Bool.and_eq_true, beq_iff_eq] at h
    exact ⟨h.1, h.2⟩

theorem WFNode_of_parts {S : Schema} {p : String} {n : IncludeNode}
    (h1 : lookupAssocTarget S p n.asName = some n.model)
    (h2 : WFList S n.model n.inc = true) :
    WFNode S p n = true := by
  cases n with
  | mk m a t w o l s r ch =>
    rw [WFNode]
    simp only [Bool.and_eq_true, beq_iff_eq]
    exact ⟨h1, h2⟩

theorem WFList_mem_node {S : Schema} {p : String} {l : List IncludeNode}
    (h : WFList S p l = true) : ∀ n ∈ l, WFNode S p n = true := by
  induction l with
  | nil => intro n hn; simp at hn
  | cons a rest ih =>
    obtain ⟨h1, h2, h3⟩ := WFList_cons.mp h
    intro n hn
    rcases List.mem_cons.mp hn with hn | hn
    · subst hn; exact h1
    · exact ih h3 n hn

/-- Under well-formedness, matching on (model, as) is matching on the alias
alone: the alias determines the model through the association. -/
theorem incKeyMatch_iff_alias {S : Schema} {m leg tgt : String}
    {l : List IncludeNode} (hw : WFList S m l = true)
    (hlk : lookupAssocTarget S m leg = some tgt) :
    ∀ x ∈ l, incKeyMatch tgt leg x = (x.asName == leg) := by
  intro x hx
  have hn := WFList_mem_node hw x hx
  obtain ⟨hl, -⟩ := WFNode_parts hn
  rw [incKeyMatch]
  cases ha : (x.asName == leg) with
  | false => simp [ha]
  | true =>
    have : x.asName = leg := by simpa using ha
    rw [this] at hl
    rw [hlk] at hl
    cases hl
    simp [ha]

theorem WFList_replace {S : Schema} {p : String} :
    ∀ {pre post : List IncludeNode} {n n2 : IncludeNode},
      WFList S p (pre ++ n :: post) = true →
      n2.asName = n.asName → WFNode S p n2 = true →
      WFList S p (pre ++ n2 :: post) = true := by
  intro pre
  induction pre with
  | nil =>
    intro post n n2 h ha hn
    obtain ⟨h1, h2, h3⟩ := WFList_cons.mp h
    refine WFList_cons.mpr ⟨hn, ?_, h3⟩
    intro x hx
    rw [ha]
    exact h2 x hx
  | cons a rest ih =>
    intro post n n2 h ha hn
    obtain ⟨h1, h2, h3⟩ := WFList_cons.mp h
    refine WFList_cons.mpr ⟨h1, ?_, ih h3 ha hn⟩
    intro x hx
    rcases List.mem_append.mp hx with hx | hx
    · exact h2 x (List.mem_append.mpr (Or.inl hx))
    · rcases List.mem_cons.mp hx with hx | hx
      · subst hx
        rw [ha]
        exact h2 n (List.mem_append.mpr (Or.inr (List.mem_cons_self _ _)))
      · exact h2 x (List.mem_append.mpr (Or.inr (List.mem_cons_of_mem _ hx)))

theorem WFList_append_singleton {S : Schema} {p : String}
    {l : List IncludeNode} {x : IncludeNode}
    (hl : WFList S p l = true) (hx : WFNode S p x = true)
    (hfr : ∀ y ∈ l, (y.asName == x.asName) = false) :
    WFList S p (l ++ [x]) = true := by
  induction l with
  | nil =>
    simpa using WFList_cons.mpr ⟨hx, by simp, by rw [WFList]⟩
  | cons a rest ih =>
    obtain ⟨h1, h2, h3⟩ := WFList_cons.mp hl
    refine WFList_cons.mpr ⟨h1, ?_, ih h3 (fun y hy => hfr y (List.mem_cons_of_mem _ hy))⟩
    intro y hy
    rcases List.mem_append.mp hy with hy | hy
    · exact h2 y hy
    · rcases List.mem_cons.mp hy with hy | hy
      · subst hy
        have := hfr a (List.mem_cons_self _ _)
        rw [str_beq_comm]
        exact this
      · simp at hy

theorem WFList_post_fresh {S : Schema} {p : String} :
    ∀ {pre post : List IncludeNode} {n : IncludeNode},
      WFList S p (pre ++ n :: post) = true →
      ∀ y ∈ post, (y.asName == n.asName) = false := by
  intro pre
  induction pre with
  | nil =>
    intro post n h y hy
    obtain ⟨-, h2, -⟩ := WFList_cons.mp h
    exact h2 y hy
  | cons a rest ih =>
    intro post n h y hy
    obtain ⟨-, -, h3⟩ := WFList_cons.mp h
    exact ih h3 y hy

theorem countAlias_append (a : String) (l1 l2 : List IncludeNode) :
    countAlias a (l1 ++ l2) = countAlias a l1 + countAlias a l2 := by
  induction l1 with
  | nil => simp [countAlias]
  | cons x rest ih => rw [List.cons_append, countAlias, countAlias, ih]; omega

theorem countAlias_zero {a : String} {l : List IncludeNode}
    (h : ∀ x ∈ l, (x.asName == a) = false) : countAlias a l = 0 := by
  induction l with
  | nil => rfl
  | cons x rest ih =>
    rw [countAlias, h x (List.mem_cons_self _ _),
      ih (fun y hy => h y (List.mem_cons_of_mem _ hy))]
    simp

theorem synthNode_model (S : Schema) (tgt leg : String)
    (ci : List IncludeNode) : (synthNode S tgt leg ci).model = tgt := rfl

theorem synthNode_asName (S : Schema) (tgt leg : String)
    (ci : List IncludeNode) : (synthNode S tgt leg ci).asName = leg := rfl

theorem synthNode_inc (S : Schema) (tgt leg : String)
    (ci : List IncludeNode) : (synthNode S tgt leg ci).inc = ci := rfl

theorem synthNode_withInc (S : Schema) (tgt leg : String)
    (ci : List IncludeNode) :
    (synthNode S tgt leg ci).withInc ci = synthNode S tgt leg ci := rfl

theorem applyIncludesGo_reuse (S : Schema) :
    ∀ (legs : List String) (m : String) (incs incs2 : List IncludeNode)
      (ch : List (String × String)),
      WFList S m incs = true →
      applyIncludesGo S legs m incs = some (incs2, ch) →
      WFList S m incs2 = true ∧ realizesAlias S legs m incs2 = true ∧
        applyIncludesGo S legs m incs2 = some (incs2, ch) := by
  intro legs
  induction legs with
  | nil =>
    intro m incs incs2 ch hwf h
    simp only [applyIncludesGo] at h
    cases h
    exact ⟨hwf, by simp only [realizesAlias], by simp only [applyIncludesGo]⟩
  | cons leg rest ih =>
    intro m incs incs2 ch hwf h
    simp only [applyIncludesGo] at h
    cases hlk : lookupAssocTarget S m leg with
    | none => rw [hlk] at h; exact Option.noConfusion h
    | some tgt =>
      simp only [hlk] at h
      cases hfk : findKey tgt leg incs with
      | some trip =>
        obtain ⟨pre, n, post⟩ := trip
        simp only [hfk] at h
        cases hgo : applyIncludesGo S rest tgt n.inc with
        | none => rw [hgo] at h; exact Option.noConfusion h
        | some pair =>
          obtain ⟨ci, ch1⟩ := pair
          simp only [hgo, Option.some.injEq, Prod.mk.injEq] at h
          obtain ⟨h1, h2⟩ := h
          subst h1
          subst h2
          obtain ⟨hsplit, hmatch, hprefirst⟩ := findKey_some_split hfk
          have hnmem : n ∈ incs := by
            rw [hsplit]
            exact List.mem_append.mpr (Or.inr (List.mem_cons_self _ _))
          have hwfn := WFList_mem_node hwf n hnmem
          obtain ⟨hnl, hnch⟩ := WFNode_parts hwfn
          have hmm := hmatch
          rw [incKeyMatch] at hmm
          simp only [Bool.and_eq_true, beq_iff_eq] at hmm
          obtain ⟨hmod, halias⟩ := hmm
          have hchwf : WFList S tgt n.inc = true := by rw [← hmod]; exact hnch
          obtain ⟨ihw, ihr, ihid⟩ := ih tgt n.inc ci ch1 hchwf hgo
          have hn2 : WFNode S m (n.withInc ci) = true := by
            apply WFNode_of_parts
            · rw [withInc_asName, withInc_model]; exact hnl
            · rw [withInc_model, withInc_inc, hmod]; exact ihw
          rw [hsplit] at hwf
          have hwf2 := WFList_replace hwf (withInc_asName n ci) hn2
          have haliasmem : ∀ x ∈ pre, (x.asName == leg) = false := by
            intro x hx
            rw [← incKeyMatch_iff_alias hwf hlk x
              (List.mem_append.mpr (Or.inl hx))]
            · exact hprefirst x hx
          have hpost : ∀ y ∈ post, (y.asName == leg) = false := by
            intro y hy
            have := WFList_post_fresh hwf y hy
            rw [halias] at this
            exact this
          have hcount : countAlias leg (pre ++ n.withInc ci :: post) = 1 := by
            rw [countAlias_append, countAlias, countAlias_zero haliasmem,
              countAlias_zero hpost, withInc_asName, halias]
            simp
          have hfk2 : findKey tgt leg (pre ++ n.withInc ci :: post) =
              some (pre, n.withInc ci, post) :=
            findKey_append_first hprefirst
              (by rw [incKeyMatch_withInc]; exact hmatch)
          refine ⟨hwf2, ?_, ?_⟩
          · simp only [realizesAlias, hlk, hcount, hfk2, withInc_inc]
            simp [ihr]
          · simp only [applyIncludesGo, hlk, hfk2, withInc_inc, ihid,
              withInc_withInc]
      | none =>
        simp only [hfk] at h
        cases hgo : applyIncludesGo S rest tgt [] with
        | none => rw [hgo] at h; exact Option.noConfusion h
        | some pair =>
          obtain ⟨ci, ch1⟩ := pair
          simp only [hgo, Option.some.injEq, Prod.mk.injEq] at h
          obtain ⟨h1, h2⟩ := h
          subst h1
          subst h2
          have hnone := findKey_none_forall hfk
          obtain ⟨ihw, ihr, ihid⟩ := ih tgt [] ci ch1 (by rw [WFList]) hgo
          have hfr : ∀ y ∈ incs, (y.asName == leg) = false := by
            intro y hy
            rw [← incKeyMatch_iff_alias hwf hlk y hy]
            exact hnone y hy
          have hsw : WFNode S m (synthNode S tgt leg ci) = true := by
            apply WFNode_of_parts
            · rw [synthNode_asName, synthNode_model]; exact hlk
            · rw [synthNode_model, synthNode_inc]; exact ihw
          have hwf2 := WFList_append_singleton hwf hsw
            (by intro y hy; rw [synthNode_asName]; exact hfr y hy)
          have hmatchs : incKeyMatch tgt leg (synthNode S tgt leg ci) = true := by
            rw [incKeyMatch, synthNode_model, synthNode_asName]; simp
          have hfk2 : findKey tgt leg (incs ++ [synthNode S tgt leg ci]) =
              some (incs, synthNode S tgt leg ci, []) :=
            findKey_append_first hnone hmatchs
          have hcount : countAlias leg (incs ++ [synthNode S tgt leg ci]) = 1 := by
            rw [countAlias_append, countAlias_zero hfr, countAlias,
              synthNode_asName, countAlias]
            simp
          refine ⟨hwf2, ?_, ?_⟩
          · simp only [realizesAlias, hlk, hcount, hfk2, synthNode_inc]
            simp [ihr]
          · simp only [applyIncludesGo, hlk, hfk2, synthNode_inc, ihid,
              synthNode_withInc]

/-- C2: resolving a qualified dotted path with applyIncludes — as done both
by applyWhereIncludes for filter keys and by getOrder via applyIncludes for
dotted order columns — leaves, for each association leg, exactly one
include node with that alias in the corresponding sibling list
(realizesAlias), preserves well-formedness, and resolving the same path
again against the result returns it unchanged instead of appending a
duplicate node. -/
theorem applyIncludes_join_reuse (S : Schema) (col m : String) (incs incs2 : List IncludeNode)
    (hwf : WFList S m incs = true)
    (h : applyIncludes S col incs m = some incs2) :
    WFList S m incs2 = true ∧
    realizesAlias S (legsOf col) m incs2 = true ∧
    applyIncludes S col incs2 m = some incs2 := by
  unfold applyIncludes at h ⊢
  cases hgo : applyIncludesGo S (legsOf col) m incs with
  | none => rw [hgo] at h; exact Option.noConfusion h
  | some pair =>
    obtain ⟨l2, ch⟩ := pair
    simp only [hgo, Option.map, Option.some.injEq] at h
    subst h
    obtain ⟨h1, h2, h3⟩ :=
      applyIncludesGo_reuse S (legsOf col) m incs l2 ch hwf hgo
    exact ⟨h1, h2, by rw [h3]; rfl⟩

/-- Witness: a two-leg path resolved against a list already holding the
first leg. -/
theorem applyIncludes_join_reuse_witness :
    WFList S2 "Order" c2out = true ∧
    realizesAlias S2 (legsOf "$customer.nation.code$") "Order" c2out = true ∧
    applyIncludes S2 "$customer.nation.code$" c2out "Order" = some c2out :=
  applyIncludes_join_reuse S2 "$customer.nation.code$" "Order" c2incs c2out rfl rfl

theorem allNodesL_append (a b : List IncludeNode) :
    allNodesL (a ++ b) = allNodesL a ++ allNodesL b := by
  induction a with
  | nil => simp [allNodesL]
  | cons x rest ih =>
    rw [List.cons_append]
    rw [allNodesL, allNodesL]
    rw [ih, List.append_assoc]

theorem allNodesN_eq (n : IncludeNode) :
    allNodesN n = n :: allNodesL n.inc := by
  cases n; rfl

theorem mem_allNodesL_of_mem {n : IncludeNode} {l : List IncludeNode}
    (h : n ∈ l) : n ∈ allNodesL l := by
  induction l with
  | nil => simp at h
  | cons a rest ih =>
    rw [allNodesL]
    rcases List.mem_cons.mp h with h | h
    · subst h
      rw [allNodesN_eq]
      exact List.mem_append.mpr (Or.inl (List.mem_cons_self _ _))
    · exact List.mem_append.mpr (Or.inr (ih h))

theorem allNodesL_trans {x n : IncludeNode} {l : List IncludeNode}
    (hn : n ∈ l) (hx : x ∈ allNodesL n.inc) : x ∈ allNodesL l := by
  induction l with
  | nil => simp at hn
  | cons a rest ih =>
    rw [allNodesL]
    rcases List.mem_cons.mp hn with h | h
    · subst h
      rw [allNodesN_eq]
      exact List.mem_append.mpr (Or.inl (List.mem_cons_of_mem _ hx))
    · exact List.mem_append.mpr (Or.inr (ih h))

theorem applyIncludesGo_synth (S : Schema) :
    ∀ (legs : List String) (m : String) (incs incs2 : List IncludeNode)
      (ch : List (String × String)),
      applyIncludesGo S legs m incs = some (incs2, ch) →
      ∀ x ∈ allNodesL incs2,
        (∃ n0 ∈ allNodesL incs, n0.header = x.header) ∨ synthShape S x := by
  intro legs
  induction legs with
  | nil =>
    intro m incs incs2 ch h x hx
    simp only [applyIncludesGo] at h
    cases h
    exact Or.inl ⟨x, hx, rfl⟩
  | cons leg rest ih =>
    intro m incs incs2 ch h x hx
    simp only [applyIncludesGo] at h
    cases hlk : lookupAssocTarget S m leg with
    | none => rw [hlk] at h; exact Option.noConfusion h
    | some tgt =>
      simp only [hlk] at h
      cases hfk : findKey tgt leg incs with
      | some trip =>
        obtain ⟨pre, n, post⟩ := trip
        simp only [hfk] at h
        cases hgo : applyIncludesGo S rest tgt n.inc with
        | none => rw [hgo] at h; exact Option.noConfusion h
        | some pair =>
          obtain ⟨ci, ch1⟩ := pair
          simp only [hgo, Option.some.injEq, Prod.mk.injEq] at h
          obtain ⟨h1, h2⟩ := h
          subst h1
          obtain ⟨hsplit, hmatch, hprefirst⟩ := findKey_some_split hfk
          have hnmem : n ∈ incs := by
            rw [hsplit]
            exact List.mem_append.mpr (Or.inr (List.mem_cons_self _ _))
          rw [allNodesL_append, allNodesL] at hx
          rcases List.mem_append.mp hx with hx | hx
          · refine Or.inl ⟨x, ?_, rfl⟩
            rw [hsplit, allNodesL_append]
            exact List.mem_append.mpr (Or.inl hx)
          · rw [allNodesN_eq, withInc_inc] at hx
            rcases List.mem_cons.mp hx with hx | hx
            · subst hx
              exact Or.inl ⟨n, mem_allNodesL_of_mem hnmem,
                (withInc_header n ci).symm⟩
            · rcases List.mem_append.mp hx with hx | hx
              · rcases ih tgt n.inc ci ch1 hgo x hx with ⟨n0, hn0, hh⟩ | hs
                · exact Or.inl ⟨n0, allNodesL_trans hnmem hn0, hh⟩
                · exact Or.inr hs
              · refine Or.inl ⟨x, ?_, rfl⟩
                rw [hsplit, allNodesL_append, allNodesL, allNodesN_eq]
                simp [hx]
      | none =>
        simp only [hfk] at h
        cases hgo : applyIncludesGo S rest tgt [] with
        | none => rw [hgo] at h; exact Option.noConfusion h
        | some pair =>
          obtain ⟨ci, ch1⟩ := pair
          simp only [hgo, Option.some.injEq, Prod.mk.injEq] at h
          obtain ⟨h1, h2⟩ := h
          subst h1
          rw [allNodesL_append, allNodesL, allNodesL, allNodesN_eq,
            synthNode_inc] at hx
          rcases List.mem_append.mp hx with hx | hx
          · exact Or.inl ⟨x, hx, rfl⟩
          · rcases List.mem_cons.mp hx with hx | hx
            · subst hx
              exact Or.inr ⟨rfl, rfl, rfl, rfl, rfl⟩
            · rcases List.mem_append.mp hx with hx | hx
              · rcases ih tgt [] ci ch1 hgo x hx with ⟨n0, hn0, hh⟩ | hs
                · rw [allNodesL] at hn0
                  simp at hn0
                · exact Or.inr hs
              · simp [allNodesL] at hx

/-- C6: after applyIncludes resolves a qualified path, every node of the
resulting include forest either keeps the header (everything except the
children) of a node already present before the call, or is a synthesized
node projecting exactly the target's primaryKeyAttributes with no where,
order or limit of its own and an effectively false required flag (the key
is left unset, which Sequelize reads as an outer join). -/
theorem applyIncludes_synthesized_minimal (S : Schema) (col m : String) (incs incs2 : List IncludeNode)
    (h : applyIncludes S col incs m = some incs2) :
    ∀ x ∈ allNodesL incs2,
      (∃ n0 ∈ allNodesL incs, n0.header = x.header) ∨ synthShape S x := by
  unfold applyIncludes at h
  cases hgo : applyIncludesGo S (legsOf col) m incs with
  | none => rw [hgo] at h; exact Option.noConfusion h
  | some pair =>
    obtain ⟨l2, ch⟩ := pair
    simp only [hgo, Option.map, Option.some.injEq] at h
    subst h
    exact applyIncludesGo_synth S (legsOf col) m incs l2 ch hgo

/-- Witness: the node synthesized for a filter key never selected by the
caller. -/
theorem applyIncludes_synthesized_minimal_witness : synthShape S2 (synthNode S2 "Customer" "customer" []) := by
  rcases applyIncludes_synthesized_minimal S2 "$customer.region$" "Order" []
      [synthNode S2 "Customer" "customer" []] rfl
      (synthNode S2 "Customer" "customer" [])
      (mem_allNodesL_of_mem (List.mem_cons_self _ _)) with ⟨n0, hn0, -⟩ | hs
  · rw [allNodesL] at hn0
    simp at hn0
  · exact hs

theorem pkOkNode_eq (S : Schema) (n : IncludeNode) :
    pkOkNode S n = (headPkOk S n && pkOkList S n.inc) := by
  cases n; rfl

theorem pkOkList_cons {S : Schema} {n : IncludeNode}
    {rest : List IncludeNode} :
    pkOkList S (n :: rest) = true ↔
      pkOkNode S n = true ∧ pkOkList S rest = true := by
  rw [pkOkList]
  simp

theorem pkOkList_append {S : Schema} {a b : List IncludeNode} :
    pkOkList S (a ++ b) = true ↔
      pkOkList S a = true ∧ pkOkList S b = true := by
  induction a with
  | nil => simp [pkOkList]
  | cons x rest ih =>
    rw [List.cons_append]
    rw [pkOkList_cons, pkOkList_cons]
    rw [ih]
    tauto

theorem headPkOk_withInc (S : Schema) (n : IncludeNode)
    (ci : List IncludeNode) : headPkOk S (n.withInc ci) = headPkOk S n := by
  cases n; rfl

theorem lookupKey_mem {α : Type} {l : List (String × α)} {k : String}
    {v : α} (h : lookupKey l k = some v) : (k, v) ∈ l := by
  induction l with
  | nil => simp [lookupKey] at h
  | cons a rest ih =>
    obtain ⟨k0, v0⟩ := a
    rw [lookupKey] at h
    split at h
    · rename_i hk
      cases h
      have : k0 = k := by simpa using hk
      subst this
      exact List.mem_cons_self _ _
    · exact List.mem_cons_of_mem _ (ih h)

theorem pkConsistent_getEntity {S : Schema}
    (hS : schemaPkConsistent S = true) (m : String) :
    (match (getEntity S m).primaryKeyAttribute with
     | some k => (getEntity S m).primaryKeyAttributes.contains k
     | none => true) = true := by
  rw [getEntity]
  cases hlu : lookupKey S m with
  | none => rfl
  | some e =>
    have hmem := lookupKey_mem hlu
    have := List.all_eq_true.mp hS (m, e) hmem
    simpa using this

theorem headPkOk_synth {S : Schema} (hS : schemaPkConsistent S = true)
    (tgt leg : String) (ci : List IncludeNode) :
    headPkOk S (synthNode S tgt leg ci) = true := by
  have hcons := pkConsistent_getEntity hS tgt
  have hm : (synthNode S tgt leg ci).model = tgt := rfl
  have ha : (synthNode S tgt leg ci).attributes =
      some (getEntity S tgt).primaryKeyAttributes := rfl
  rw [headPkOk, hm, ha]
  cases hpk : (getEntity S tgt).primaryKeyAttribute with
  | none => simp only [hpk]
  | some k =>
    simp only [hpk] at hcons ⊢
    try exact hcons

theorem pkOkList_mid {S : Schema} {pre post : List IncludeNode}
    {n : IncludeNode} :
    pkOkList S (pre ++ n :: post) = true ↔
      pkOkList S pre = true ∧ pkOkNode S n = true ∧
        pkOkList S post = true := by
  rw [pkOkList_append, pkOkList_cons]

theorem applyIncludesGo_pk {S : Schema}
    (hS : schemaPkConsistent S = true) :
    ∀ (legs : List String) (m : String) (incs incs2 : List IncludeNode)
      (ch : List (String × String)),
      pkOkList S incs = true →
      applyIncludesGo S legs m incs = some (incs2, ch) →
      pkOkList S incs2 = true := by
  intro legs
  induction legs with
  | nil =>
    intro m incs incs2 ch hpk h
    simp only [applyIncludesGo] at h
    cases h
    exact hpk
  | cons leg rest ih =>
    intro m incs incs2 ch hpk h
    simp only [applyIncludesGo] at h
    cases hlk : lookupAssocTarget S m leg with
    | none => rw [hlk] at h; exact Option.noConfusion h
    | some tgt =>
      simp only [hlk] at h
      cases hfk : findKey tgt leg incs with
      | some trip =>
        obtain ⟨pre, n, post⟩ := trip
        simp only [hfk] at h
        cases hgo : applyIncludesGo S rest tgt n.inc with
        | none => rw [hgo] at h; exact Option.noConfusion h
        | some pair =>
          obtain ⟨ci, ch1⟩ := pair
          simp only [hgo, Option.some.injEq, Prod.mk.injEq] at h
          obtain ⟨h1, h2⟩ := h
          subst h1
          obtain ⟨hsplit, -, -⟩ := findKey_some_split hfk
          rw [hsplit] at hpk
          obtain ⟨hpre, hn, hpost⟩ := pkOkList_mid.mp hpk
          rw [pkOkNode_eq] at hn
          simp only [Bool.and_eq_true] at hn
          have hci := ih tgt n.inc ci ch1 hn.2 hgo
          refine pkOkList_mid.mpr ⟨hpre, ?_, hpost⟩
          rw [pkOkNode_eq, headPkOk_withInc, withInc_inc]
          simp [hn.1, hci]
      | none =>
        simp only [hfk] at h
        cases hgo : applyIncludesGo S rest tgt [] with
        | none => rw [hgo] at h; exact Option.noConfusion h
        | some pair =>
          obtain ⟨ci, ch1⟩ := pair
          simp only [hgo, Option.some.injEq, Prod.mk.injEq] at h
          obtain ⟨h1, h2⟩ := h
          subst h1
          have hci := ih tgt [] ci ch1 (by rw [pkOkList]) hgo
          refine pkOkList_append.mpr ⟨hpk, ?_⟩
          refine pkOkList_cons.mpr ⟨?_, by rw [pkOkList]⟩
          rw [pkOkNode_eq, synthNode_inc]
          simp [headPkOk_synth hS, hci]

theorem applyIncludes_pk {S : Schema} (hS : schemaPkConsistent S = true)
    {col m : String} {incs incs2 : List IncludeNode}
    (hpk : pkOkList S incs = true)
    (h : applyIncludes S col incs m = some incs2) :
    pkOkList S incs2 = true := by
  unfold applyIncludes at h
  cases hgo : applyIncludesGo S (legsOf col) m incs with
  | none => rw [hgo] at h; exact Option.noConfusion h
  | some pair =>
    obtain ⟨l2, ch⟩ := pair
    simp only [hgo, Option.map, Option.some.injEq] at h
    subst h
    exact applyIncludesGo_pk hS (legsOf col) m incs l2 ch hpk hgo

theorem applyColumns_pk {S : Schema} (hS : schemaPkConsistent S = true) :
    ∀ (cols : List String) (incs incs2 : List IncludeNode) (m : String),
      pkOkList S incs = true →
      applyColumns S cols incs m = some incs2 →
      pkOkList S incs2 = true := by
  intro cols
  induction cols with
  | nil =>
    intro incs incs2 m hpk h
    rw [applyColumns] at h
    cases h
    exact hpk
  | cons c cs ih =>
    intro incs incs2 m hpk h
    rw [applyColumns] at h
    cases hap : applyIncludes S c incs m with
    | none => rw [hap] at h; exact Option.noConfusion h
    | some l2 =>
      rw [hap] at h
      exact ih l2 incs2 m (applyIncludes_pk hS hpk hap) h

theorem applyWhereIncludes_pk {S : Schema}
    (hS : schemaPkConsistent S = true) {w : JSVal}
    {incs incs2 : List IncludeNode} {m : String}
    (hpk : pkOkList S incs = true)
    (h : applyWhereIncludes S w incs m = some incs2) :
    pkOkList S incs2 = true := by
  rw [applyWhereIncludes] at h
  cases hk : getAllKeys w with
  | none => rw [hk] at h; exact Option.noConfusion h
  | some ks =>
    rw [hk] at h
    exact applyColumns_pk hS _ incs incs2 m hpk h

theorem getOrder_pk {S : Schema} (hS : schemaPkConsistent S = true) :
    ∀ (obs : List SQLOrder) (incs : List IncludeNode) (m : String)
      (items : List OrderItem) (incs2 : List IncludeNode),
      pkOkList S incs = true →
      getOrder S obs incs m = some (items, incs2) →
      pkOkList S incs2 = true := by
  intro obs
  induction obs with
  | nil =>
    intro incs m items incs2 hpk h
    rw [getOrder] at h
    cases h
    exact hpk
  | cons ob rest ih =>
    intro incs m items incs2 hpk h
    rw [getOrder] at h
    split at h
    · cases hgo : applyIncludesGo S (legsOf ob.col) m incs with
      | none => rw [hgo] at h; exact Option.noConfusion h
      | some pair =>
        obtain ⟨l2, ch⟩ := pair
        simp only [hgo] at h
        cases hrec : getOrder S rest l2 m with
        | none => rw [hrec] at h; exact Option.noConfusion h
        | some pair2 =>
          obtain ⟨items2, l3⟩ := pair2
          simp only [hrec, Option.some.injEq, Prod.mk.injEq] at h
          obtain ⟨h1, h2⟩ := h
          subst h2
          exact ih l2 m items2 l3
            (applyIncludesGo_pk hS (legsOf ob.col) m incs l2 ch hpk hgo) hrec
    · cases hrec : getOrder S rest incs m with
      | none => rw [hrec] at h; exact Option.noConfusion h
      | some pair2 =>
        obtain ⟨items2, l3⟩ := pair2
        simp only [hrec, Option.some.injEq, Prod.mk.injEq] at h
        obtain ⟨h1, h2⟩ := h
        subst h2
        exact ih incs m items2 l3 hpk hrec

theorem buildNodeList_eq_foldr (S : Schema) (fuel : Nat) (ctx : QueryCtx)
    (pm : String) : ∀ fs : List SelectionNode,
    buildNodeList S fuel ctx pm fs = fs.foldr
      (fun g acc =>
        match buildIncludeNode S fuel ctx pm g, acc with
        | some n, some r => some (n :: r)
        | _, _ => none)
      (some []) := by
  intro fs
  induction fs with
  | nil => rfl
  | cons f rest ih => rw [List.foldr_cons, ← ih]; rfl

/-- buildIncludeNode restated through getIncludes, for inversion. -/
theorem buildIncludeNode_eq (S : Schema) (fuel : Nat) (ctx : QueryCtx)
    (pm : String) (f : SelectionNode) :
    buildIncludeNode S fuel ctx pm f =
      match selectionsOf ctx f with
      | none => none
      | some sels =>
        match lookupAssocTarget S pm (selName f) with
        | none => none
        | some tgt =>
          match extractArgs (bagOfField ctx f) with
          | none => none
          | some ea =>
            match getIncludes S fuel ctx sels tgt with
            | none => none
            | some children =>
              match applyWhereIncludes S (jsOrElse ea.whereArg (.obj []))
                  children tgt with
              | none => none
              | some children2 =>
                some (.mk tgt (selName f)
                  (if sels.length > 0 then some (pkPrependAttrs S tgt sels)
                   else none)
                  ea.whereArg ea.order ea.limit ea.separate ea.required
                  children2) := by
  cases fuel with
  | zero =>
    unfold buildIncludeNode getIncludes
    rfl
  | succ fuel2 =>
    unfold buildIncludeNode getIncludes
    simp only [buildNodeList_eq_foldr]
    rfl

theorem pkPrependAttrs_contains {S : Schema} {tgt k : String}
    (sels : List SelectionNode)
    (hpk : (getEntity S tgt).primaryKeyAttribute = some k) :
    (pkPrependAttrs S tgt sels).contains k = true := by
  rw [pkPrependAttrs]
  simp only [hpk]
  split
  · assumption
  · simp

theorem headPkOk_mk (S : Schema) (tgt a : String)
    (sels : List SelectionNode) (c : Prop) [Decidable c] (w : Option JSVal)
    (o : Option (List (JSVal × JSVal))) (l : Option JSVal) (sep : Bool)
    (r : JSVal) (ch : List IncludeNode) :
    headPkOk S (.mk tgt a
      (if c then some (pkPrependAttrs S tgt sels) else none)
      w o l sep r ch) = true := by
  by_cases hc : c
  · cases hpk : (getEntity S tgt).primaryKeyAttribute with
    | none => simp [headPkOk, IncludeNode.attributes, IncludeNode.model,
        hpk, hc]
    | some k =>
      have hm : k ∈ pkPrependAttrs S tgt sels := by
        simpa using pkPrependAttrs_contains sels hpk
      simp [headPkOk, IncludeNode.attributes, IncludeNode.model, hpk, hc, hm]
  · cases hpk : (getEntity S tgt).primaryKeyAttribute with
    | none => simp [headPkOk, IncludeNode.attributes, IncludeNode.model,
        hpk, hc]
    | some k => simp [headPkOk, IncludeNode.attributes, IncludeNode.model,
        hpk, hc]

theorem buildNodeList_pk_of {S : Schema} {fuel : Nat} {ctx : QueryCtx}
    {pm : String}
    (ha : ∀ f n, buildIncludeNode S fuel ctx pm f = some n →
      pkOkNode S n = true) :
    ∀ (fs : List SelectionNode) (ns : List IncludeNode),
      buildNodeList S fuel ctx pm fs = some ns → pkOkList S ns = true := by
  intro fs
  induction fs with
  | nil =>
    intro ns h
    rw [buildNodeList] at h
    cases h
    rw [pkOkList]
  | cons f rest ih =>
    intro ns h
    rw [buildNodeList] at h
    cases hb : buildIncludeNode S fuel ctx pm f with
    | none => simp only [hb] at h; exact Option.noConfusion h
    | some n =>
      cases hr : buildNodeList S fuel ctx pm rest with
      | none => simp only [hb, hr] at h; exact Option.noConfusion h
      | some rest2 =>
        simp only [hb, hr, Option.some.injEq] at h
        subst h
        exact pkOkList_cons.mpr ⟨ha f n hb, ih rest2 hr⟩

theorem buildIncludeNode_pk {S : Schema}
    (hS : schemaPkConsistent S = true) :
    ∀ (fuel : Nat) (ctx : QueryCtx) (pm : String) (f : SelectionNode)
      (n : IncludeNode),
      buildIncludeNode S fuel ctx pm f = some n → pkOkNode S n = true := by
  intro fuel
  induction fuel with
  | zero =>
    intro ctx pm f n h
    rw [buildIncludeNode_eq] at h
    cases hsels : selectionsOf ctx f with
    | none => rw [hsels] at h; exact Option.noConfusion h
    | some sels =>
      simp only [hsels] at h
      cases htgt : lookupAssocTarget S pm (selName f) with
      | none => rw [htgt] at h; exact Option.noConfusion h
      | some tgt =>
        simp only [htgt] at h
        cases hea : extractArgs (bagOfField ctx f) with
        | none => rw [hea] at h; exact Option.noConfusion h
        | some ea =>
          simp only [hea] at h
          have hgi : getIncludes S 0 ctx sels tgt = none := rfl
          rw [hgi] at h
          exact Option.noConfusion h
  | succ fuel2 ih =>
    intro ctx pm f n h
    rw [buildIncludeNode_eq] at h
    cases hsels : selectionsOf ctx f with
    | none => rw [hsels] at h; exact Option.noConfusion h
    | some sels =>
      simp only [hsels] at h
      cases htgt : lookupAssocTarget S pm (selName f) with
      | none => rw [htgt] at h; exact Option.noConfusion h
      | some tgt =>
        simp only [htgt] at h
        cases hea : extractArgs (bagOfField ctx f) with
        | none => rw [hea] at h; exact Option.noConfusion h
        | some ea =>
          simp only [hea] at h
          cases hgi : getIncludes S (Nat.succ fuel2) ctx sels tgt with
          | none => rw [hgi] at h; exact Option.noConfusion h
          | some children =>
            simp only [hgi] at h
            cases hwre : applyWhereIncludes S
                (jsOrElse ea.whereArg (.obj [])) children tgt with
            | none => rw [hwre] at h; exact Option.noConfusion h
            | some children2 =>
              simp only [hwre, Option.some.injEq] at h
              subst h
              have hgieq : getIncludes S (Nat.succ fuel2) ctx sels tgt =
                  buildNodeList S fuel2 ctx tgt (sels.filter
                    (fun g =>
                      (lookupAssocTarget S tgt (selName g)).isSome)) := rfl
              rw [hgieq] at hgi
              have hch : pkOkList S children = true :=
                buildNodeList_pk_of (fun f2 n2 hb => ih ctx tgt f2 n2 hb)
                  _ children hgi
              have hch2 : pkOkList S children2 = true :=
                applyWhereIncludes_pk hS hch hwre
              rw [pkOkNode_eq]
              have hinc : (IncludeNode.mk tgt (selName f)
                  (if sels.length > 0 then some (pkPrependAttrs S tgt sels)
                   else none)
                  ea.whereArg ea.order ea.limit ea.separate ea.required
                  children2).inc = children2 := rfl
              rw [hinc]
              simp [headPkOk_mk, hch2]

theorem getIncludes_pk {S : Schema} (hS : schemaPkConsistent S = true)
    {fuel : Nat} {ctx : QueryCtx} {fields : List SelectionNode}
    {pm : String} {incs : List IncludeNode}
    (h : getIncludes S fuel ctx fields pm = some incs) :
    pkOkList S incs = true := by
  cases fuel with
  | zero => exact Option.noConfusion h
  | succ f2 =>
    have he : getIncludes S (Nat.succ f2) ctx fields pm =
        buildNodeList S f2 ctx pm (fields.filter
          (fun f => (lookupAssocTarget S pm (selName f)).isSome)) := rfl
    rw [he] at h
    exact buildNodeList_pk_of
      (fun f n hb => buildIncludeNode_pk hS f2 ctx pm f n hb) _ incs h

/-- C4 (corrected): every include node of the compiled plan — the nodes
getIncludes builds as well as the nodes synthesized while binding filter
keys and dotted order columns — contains its entity's primaryKeyAttribute
whenever its attributes key is a concrete list.  The root attribute list is
exempt: getSequelizeQuery performs no primary-key insertion there (see the
counterexample).  schemaPkConsistent is the Sequelize invariant that a
declared primaryKeyAttribute appears in primaryKeyAttributes. -/
theorem plan_includes_respect_primary_key (S : Schema) (fuel : Nat) (args : SQLQueryArgs)
    (info : ResolveInfo) (m : String) (p : FindOptions)
    (hS : schemaPkConsistent S = true)
    (h : getSequelizeQuery S fuel args info m = some p) :
    pkOkList S p.inc = true := by
  rw [getSequelizeQuery] at h
  cases hsf : getSelectedFields info with
  | none => simp only [hsf] at h; exact Option.noConfusion h
  | some fields =>
    cases hrn : getRootFieldNames info with
    | none => simp only [hsf, hrn] at h; exact Option.noConfusion h
    | some rootNames =>
      simp only [hsf, hrn] at h
      cases hgi : getIncludes S fuel info.ctx fields m with
      | none => rw [hgi] at h; exact Option.noConfusion h
      | some inc0 =>
        simp only [hgi] at h
        cases hwre : applyWhereIncludes S (jsOrElse args.whereArg (.obj []))
            inc0 m with
        | none => rw [hwre] at h; exact Option.noConfusion h
        | some inc1 =>
          simp only [hwre] at h
          have hpk1 : pkOkList S inc1 = true :=
            applyWhereIncludes_pk hS (getIncludes_pk hS hgi) hwre
          cases hob : args.orderBy with
          | none =>
            simp only [hob, Option.some.injEq] at h
            subst h
            exact hpk1
          | some obs =>
            simp only [hob] at h
            cases hgo : getOrder S obs inc1 m with
            | none => rw [hgo] at h; exact Option.noConfusion h
            | some pair =>
              obtain ⟨items, inc2⟩ := pair
              simp only [hgo, Option.some.injEq] at h
              subst h
              exact getOrder_pk hS obs inc1 m items inc2 hpk1 hgo

/-- C9: resolveFragments returns a selection list containing no fragment
spreads unchanged, in both contents and order. -/
theorem resolveFragments_no_spreads_identity
    (frags : List (String × List SelectionNode))
    (sels : List SelectionNode) (h : spreadFree sels = true) :
    resolveFragments frags sels = some sels :=
  resolveFragments_spreadFree_id frags sels h

/-- Witness: a one-field spread-free list is returned as is. -/
theorem resolveFragments_no_spreads_identity_witness :
    resolveFragments frags0 [fieldB] = some [fieldB] :=
  resolveFragments_no_spreads_identity frags0 [fieldB] rfl

/-- Witness: one spread between a field and the end of the list. -/
theorem resolveFragments_single_spread_append_witness :
    resolveFragments frags0 [fieldB, .spread "f"] =
    some [fieldB, fieldX] :=
  resolveFragments_single_spread_append frags0 [fieldB] [] [fieldX] "f" rfl rfl rfl

/-- Witness: the plan with the unknown field bogus equals the plan
without it. -/
theorem getSequelizeQuery_unknown_field_ignored_witness :
    getSequelizeQuery S1 10 args0 info1 "Person" =
    getSequelizeQuery S1 10 args0 info1b "Person" :=
  getSequelizeQuery_unknown_field_ignored S1 10 args0 "Person" ⟨[], []⟩ [.field "name" none none] []
    "bogus" none none rfl rfl rfl rfl rfl

/-- Witness: the nested-plan primary-key invariant at a concrete request. -/
theorem plan_includes_respect_primary_key_witness : pkOkList S2 [c7node] = true :=
  plan_includes_respect_primary_key S2 10 args0 info3 "Order" ⟨none, [c7node], [], 100, []⟩ rfl rfl
